import Mathlib

/-!
# Verification of the Amalga document parser

Shallow embedding of `src/amalga_doc_parser/parser.py` and
`src/amalga_doc_parser/models.py`, together with theorems settling the
claims about the parser's behaviour.

Conventions of the embedding:
* Python strings are Lean `String`s; most processing is done on `List Char`.
* The regular expressions of `parser.py` are translated into explicit
  backtracking matchers that follow the engine's greedy, ordered search.
  Python's `\s` and `\d` are modelled as ASCII whitespace and ASCII digits
  (the inputs exercised by the claims are ASCII).
* The mutable `DocumentParser` instance becomes an explicit `ParserState`
  value.  The section stack (`self.section_stack`) is represented as a
  zipper: `openPath` lists the currently open sections, each stored
  *without* the subtree of its currently open last child; closing the path
  reconstitutes the tree exactly as the Python object graph holds it.
* `datetime.now()` is modelled as an explicit `now : String` argument.
-/

set_option maxRecDepth 4000

namespace Amalga

/-! ## Character helpers (Python `\s`, `\d`, `str.strip`, `str.rstrip`) -/

/-- Python `\s` / `str.isspace`, restricted to ASCII whitespace. -/
def isWs (c : Char) : Bool :=
  c = ' ' || c = '\t' || c = '\n' || c = '\r' || c = '\x0b' || c = '\x0c'

/-- Python `\d`, restricted to ASCII digits. -/
def isDigitCh (c : Char) : Bool :=
  '0' ≤ c && c ≤ '9'

/-- Python `str.rstrip()` on a character list. -/
def rstripList (cs : List Char) : List Char :=
  (cs.reverse.dropWhile isWs).reverse

/-- Python `str.rstrip()`. -/
def rstrip (s : String) : String :=
  String.mk (rstripList s.toList)

/-- Python `str.strip()` on a character list. -/
def stripList (cs : List Char) : List Char :=
  rstripList (cs.dropWhile isWs)

/-- Python `str.strip()`. -/
def strip (s : String) : String :=
  String.mk (stripList s.toList)

/-- Python `str.strip("|")`: remove the given character from both ends. -/
def stripBars (cs : List Char) : List Char :=
  ((cs.dropWhile (· = '|')).reverse.dropWhile (· = '|')).reverse

/-- Python `str.split("|")` (single-character separator): `n` separators
produce `n + 1` groups, and the empty string yields one empty group. -/
def splitOnBar : List Char → List (List Char)
  | [] => [[]]
  | c :: rest =>
    let r := splitOnBar rest
    if c = '|' then [] :: r
    else
      match r with
      | [] => [[c]]
      | g :: gs => (c :: g) :: gs

/-- Python `str.lower()`, modelled character-wise. -/
def lowerStr (s : String) : String :=
  String.mk (s.toList.map Char.toLower)

/-- Does `hay` start with `needle`? -/
def startsWithChars : List Char → List Char → Bool
  | [], _ => true
  | _ :: _, [] => false
  | a :: as, b :: bs => a = b && startsWithChars as bs

/-- Does `needle` occur contiguously in `hay`? -/
def hasSubChars (needle : List Char) : List Char → Bool
  | [] => needle.isEmpty
  | b :: bs => startsWithChars needle (b :: bs) || hasSubChars needle bs

/-- Python `needle in hay` (substring containment). -/
def containsSub (needle hay : String) : Bool :=
  hasSubChars needle.toList hay.toList

/-! ## The regex `SECTION_HEADER_PATTERN = ^(#{1,6})\s*((?:\d+\.)*\d*\.?\s*)?(.+)$`

The matcher below reproduces the engine's ordered backtracking search:
every quantifier enumerates its splits greediest-first, and the first
assignment that lets the final `(.+)$` consume at least one character wins.
-/

/-- All splits of a `p`-run quantifier (`p*`), greediest first: the `k`-th
candidate consumes the first `k` characters of the maximal `p`-run. -/
def runSplitsDesc (p : Char → Bool) (r : List Char) : List (List Char × List Char) :=
  let m := (r.takeWhile p).length
  ((List.range (m + 1)).reverse).map (fun k => (r.take k, r.drop k))

/-- One repetition of `\d+\.`: a maximal nonempty digit run followed by a
literal dot (the run being maximal makes this deterministic). -/
def numDotRep (r : List Char) : Option (List Char × List Char) :=
  let ds := r.takeWhile isDigitCh
  if ds.isEmpty then none
  else
    match r.drop ds.length with
    | '.' :: rest => some (ds ++ ['.'], rest)
    | _ => none

/-- Splits of `(?:\d+\.)*`, greediest first, computed with fuel (each
repetition consumes at least two characters, so `length + 1` fuel always
suffices). -/
def repsSplitsF : Nat → List Char → List (List Char × List Char)
  | 0, r => [([], r)]
  | Nat.succ f, r =>
    match numDotRep r with
    | none => [([], r)]
    | some (c, rest) =>
      ((repsSplitsF f rest).map (fun pr => (c ++ pr.1, pr.2))) ++ [([], r)]

/-- Splits of `(?:\d+\.)*`, greediest first. -/
def repsSplits (r : List Char) : List (List Char × List Char) :=
  repsSplitsF (r.length + 1) r

/-- Splits of `\.?`: take the dot if present, then skip it. -/
def dotSplits (r : List Char) : List (List Char × List Char) :=
  match r with
  | '.' :: rest => [(['.'], rest), ([], r)]
  | _ => [([], r)]

/-- Splits of the optional numbering group `((?:\d+\.)*\d*\.?\s*)?`, in
engine order.  A skipped group and a group matching the empty string both
yield the empty capture, which is what the parser's truthiness test on
`number_part` observes, so the non-participating alternative is folded into
the empty split. -/
def group2Splits (r : List Char) : List (List Char × List Char) :=
  (repsSplits r).flatMap (fun p1 =>
    (runSplitsDesc isDigitCh p1.2).flatMap (fun p2 =>
      (dotSplits p2.2).flatMap (fun p3 =>
        (runSplitsDesc isWs p3.2).map (fun p4 =>
          (p1.1 ++ p2.1 ++ p3.1 ++ p4.1, p4.2)))))

/-- Candidate (numbering-capture, remainder) pairs for the part of the
header pattern after the hashes, in engine order. -/
def tailCandidates (r : List Char) : List (List Char × List Char) :=
  (runSplitsDesc isWs r).flatMap (fun p => group2Splits p.2)

/-- Match `\s*((?:\d+\.)*\d*\.?\s*)?(.+)$` against `r`, returning the
`number_part` and `title_part` captures of the first successful candidate. -/
def matchTail (r : List Char) : Option (String × String) :=
  (tailCandidates r).findSome? (fun pr =>
    if pr.2.isEmpty then none else some (String.mk pr.1, String.mk pr.2))

/-- The hash-count alternatives `#{1,6}` tries, greediest first:
`[m, m-1, ..., 1]`. -/
def hashJs (m : Nat) : List Nat :=
  (List.range m).reverse.map (fun j => j + 1)

/-- Match `SECTION_HEADER_PATTERN` against a line.  Returns
`(level, number_part, title_part)` for the first successful hash count. -/
def headerMatch (line : String) : Option (Nat × String × String) :=
  let cs := line.toList
  let h := (cs.takeWhile (· = '#')).length
  (hashJs (min h 6)).findSome? (fun j =>
    (matchTail (cs.drop j)).map (fun pr => (j, pr.1, pr.2)))

/-! ## The remaining line patterns -/

/-- `TABLE_ROW_PATTERN = ^\|(.+)\|$`: a `|`, at least one interior
character, and a final `|`. -/
def isTableRow (cs : List Char) : Bool :=
  match cs with
  | '|' :: rest => rest.length ≥ 2 && rest.getLast? = some '|'
  | _ => false

def isSepMarker (c : Char) : Bool := c = '-' || c = ':'

/-- One repetition `\s*[-:]+[-:]\s*\|` of the separator pattern (the
maximal marker run is forced, making the repetition deterministic). -/
def sepCell (cs : List Char) : Option (List Char) :=
  let r1 := cs.dropWhile isWs
  let run := r1.takeWhile isSepMarker
  if run.length < 2 then none
  else
    match (r1.drop run.length).dropWhile isWs with
    | '|' :: rest => some rest
    | _ => none

/-- `(\s*[-:]+[-:]\s*\|)+$`, with fuel (each repetition consumes at least
three characters). -/
def sepCellsF : Nat → List Char → Bool
  | 0, _ => false
  | Nat.succ f, cs =>
    match sepCell cs with
    | none => false
    | some [] => true
    | some rest => sepCellsF f rest

/-- `TABLE_SEPARATOR_PATTERN = ^\|(\s*[-:]+[-:]\s*\|)+$`. -/
def isTableSeparator (cs : List Char) : Bool :=
  match cs with
  | '|' :: rest => sepCellsF (rest.length + 1) rest
  | _ => false

/-- `REFERENCE_PATTERN = ^\[(\d+)\]\s+(.+)$`, returning the two captures.
When everything after the whitespace run is empty, the engine gives one
whitespace character back to `(.+)` (possible only when the run has length
at least two, since `\s+` itself needs one). -/
def refMatch (cs : List Char) : Option (String × String) :=
  match cs with
  | '[' :: r1 =>
    let ds := r1.takeWhile isDigitCh
    if ds.isEmpty then none
    else
      match r1.drop ds.length with
      | ']' :: r2 =>
        let w := (r2.takeWhile isWs).length
        if w = 0 then none
        else
          let rest := r2.drop w
          if rest.isEmpty then
            if w ≥ 2 then some (String.mk ds, String.mk (r2.drop (w - 1)))
            else none
          else some (String.mk ds, String.mk rest)
      | _ => none
  | _ => none

/-- `TABLE_CAPTION_PATTERN = ^(?:Table|TABLE)\s+[\d\.]+:?\s+(.+)$`, as a
recognizer (the parser only uses whether it matched). -/
def captionMatch (cs : List Char) : Bool :=
  let afterWord : Option (List Char) :=
    match cs with
    | 'T' :: 'a' :: 'b' :: 'l' :: 'e' :: rest => some rest
    | 'T' :: 'A' :: 'B' :: 'L' :: 'E' :: rest => some rest
    | _ => none
  match afterWord with
  | none => false
  | some r1 =>
    let w1 := (r1.takeWhile isWs).length
    if w1 = 0 then false
    else
      let r2 := r1.drop w1
      let run := r2.takeWhile (fun c => isDigitCh c || c = '.')
      if run.isEmpty then false
      else
        let r3 := r2.drop run.length
        let r4 := match r3 with
          | ':' :: rest => rest
          | _ => r3
        let w2 := (r4.takeWhile isWs).length
        if w2 = 0 then false
        else if (r4.drop w2).isEmpty then
          -- trailing-whitespace give-back: `\s+` cedes a character to `(.+)`
          w2 ≥ 2
        else true

/-- `_clean_section_name`'s leading-numbering pattern `^\d+\.(?:\d+\.)*\s*`:
drop the remaining repetitions after the first, with fuel. -/
def dropRepsF : Nat → List Char → List Char
  | 0, r => r
  | Nat.succ f, r =>
    match numDotRep r with
    | none => r
    | some (_, rest) => dropRepsF f rest

/-- `DocumentParser._clean_section_name`: strip one leading `\d+\.`
repetition, further repetitions, and following whitespace, then
`str.strip()` the result. -/
def cleanSectionName (s : String) : String :=
  let cs := s.toList
  let cs2 :=
    match numDotRep cs with
    | none => cs
    | some pr => (dropRepsF pr.2.length pr.2).dropWhile isWs
  String.mk (stripList cs2)

/-! ## Data model (`models.py`)

`Section` is a recursive dataclass; here it is the nested inductive `Sec`
(`Section` is shadowed by core).  Dictionaries destined for JSON are
modelled by the `Json` value type below, with objects as insertion-ordered
key/value lists, matching Python dict semantics. -/

inductive Json where
  | str (s : String)
  | nat (n : Nat)
  | arr (xs : List Json)
  | obj (fields : List (String × Json))

structure Reference where
  id : String
  text : String
deriving DecidableEq

structure Table where
  id : String
  caption : String
  headers : List String
  rows : List (List String)
deriving DecidableEq

inductive Sec where
  | mk (name raw_name content : String) (level : Nat) (subsections : List Sec)

def Sec.name : Sec → String
  | .mk n _ _ _ _ => n

def Sec.raw_name : Sec → String
  | .mk _ r _ _ _ => r

def Sec.content : Sec → String
  | .mk _ _ c _ _ => c

def Sec.level : Sec → Nat
  | .mk _ _ _ l _ => l

def Sec.subsections : Sec → List Sec
  | .mk _ _ _ _ subs => subs

structure Document where
  title : String
  sections : List Sec
  tables : List Table
  references : List Reference
  metadata : List (String × Json)

/-! ## Serialization (`to_dict` / `from_dict`) -/

/-- Assigning `d[k] = v` in a Python dict: replace the first occurrence in
place, else append. -/
def dictSet : List (String × Json) → String → Json → List (String × Json)
  | [], k, v => [(k, v)]
  | (k', v') :: rest, k, v =>
    if k' = k then (k, v) :: rest else (k', v') :: dictSet rest k v

/-- Python `dict.pop(k, default)` (without the default): the removed value,
if any, and the remaining entries. -/
def dictPop : List (String × Json) → String → Option Json × List (String × Json)
  | [], _ => (none, [])
  | (k', v) :: rest, k =>
    if k' = k then (some v, rest)
    else
      let pr := dictPop rest k
      (pr.1, (k', v) :: pr.2)

def Json.asStr : Json → Option String
  | .str s => some s
  | _ => none

def Json.asNat : Json → Option Nat
  | .nat n => some n
  | _ => none

def Json.asArr : Json → Option (List Json)
  | .arr xs => some xs
  | _ => none

def Json.asObj : Json → Option (List (String × Json))
  | .obj fs => some fs
  | _ => none

def Reference.toDict (r : Reference) : Json :=
  .obj [("id", .str r.id), ("text", .str r.text)]

def Reference.fromDict (j : Json) : Option Reference := do
  let fs ← j.asObj
  let id ← (List.lookup "id" fs).bind Json.asStr
  let text ← (List.lookup "text" fs).bind Json.asStr
  pure ⟨id, text⟩

/-- Decode each element of a JSON list (a Python list comprehension whose
body may raise): `none` as soon as one element fails. -/
def decodeList {α : Type} (f : Json → Option α) : List Json → Option (List α)
  | [] => some []
  | x :: xs => do
    let a ← f x
    let rest ← decodeList f xs
    pure (a :: rest)

def decodeStrList (j : Json) : Option (List String) := do
  let xs ← j.asArr
  decodeList Json.asStr xs

def decodeRowList (j : Json) : Option (List (List String)) := do
  let xs ← j.asArr
  decodeList decodeStrList xs

def Table.toDict (t : Table) : Json :=
  .obj [("id", .str t.id), ("caption", .str t.caption),
        ("headers", .arr (t.headers.map .str)),
        ("rows", .arr (t.rows.map (fun r => .arr (r.map .str))))]

def Table.fromDict (j : Json) : Option Table := do
  let fs ← j.asObj
  let id ← (List.lookup "id" fs).bind Json.asStr
  let caption ← (List.lookup "caption" fs).bind Json.asStr
  let headers ← decodeStrList ((List.lookup "headers" fs).getD (.arr []))
  let rows ← decodeRowList ((List.lookup "rows" fs).getD (.arr []))
  pure ⟨id, caption, headers, rows⟩

mutual
def secToDict : Sec → Json
  | .mk n r c l subs =>
    .obj [("name", .str n), ("raw_name", .str r), ("content", .str c),
          ("level", .nat l), ("subsections", .arr (secsToDict subs))]

def secsToDict : List Sec → List Json
  | [] => []
  | s :: ss => secToDict s :: secsToDict ss
end

mutual
def secFromDict : Json → Option Sec
  | .obj fs => do
    let name ← (List.lookup "name" fs).bind Json.asStr
    let raw ← (match List.lookup "raw_name" fs with
               | some j => j.asStr
               | none => some "")
    let content ← (List.lookup "content" fs).bind Json.asStr
    let level ← (List.lookup "level" fs).bind Json.asNat
    let subs ← decodeSubsFields fs
    pure (.mk name raw content level subs)
  | _ => none

/-- `data.get("subsections", [])`, decoded recursively. -/
def decodeSubsFields : List (String × Json) → Option (List Sec)
  | [] => some []
  | (k, v) :: rest =>
    if k = "subsections" then decodeSecList v else decodeSubsFields rest

def decodeSecList : Json → Option (List Sec)
  | .arr xs => decodeSecs xs
  | _ => none

def decodeSecs : List Json → Option (List Sec)
  | [] => some []
  | x :: xs => do
    let s ← secFromDict x
    let rest ← decodeSecs xs
    pure (s :: rest)
end

/-- `Document.to_dict`: tables and references are spliced into the
metadata mapping on the wire. -/
def docToDict (d : Document) : Json :=
  .obj [("title", .str d.title),
        ("sections", .arr (secsToDict d.sections)),
        ("metadata", .obj
          (dictSet
            (dictSet d.metadata "tables" (.arr (d.tables.map Table.toDict)))
            "references" (.arr (d.references.map Reference.toDict))))]

/-- `Document.__post_init__`: stamp `created_at` if absent, using the
explicit clock value `now`. -/
def postInit (now : String) (md : List (String × Json)) : List (String × Json) :=
  if (List.lookup "created_at" md).isSome then md
  else md ++ [("created_at", .str now)]

/-- `Document.from_dict`.  Shape violations that would raise in Python
(missing mandatory keys, non-list tables, ...) come out as `none`. -/
def docFromDict (now : String) (j : Json) : Option Document := do
  let data ← j.asObj
  let metadata := (List.lookup "metadata" data).getD (.obj [])
  let (tablesData, refsData, metadata2) :=
    match metadata with
    | .obj fs =>
      let p1 := dictPop fs "tables"
      let p2 := dictPop p1.2 "references"
      (p1.1.getD (.arr []), p2.1.getD (.arr []), p2.2)
    | _ => (.arr [], .arr [], [])
  let title ← (List.lookup "title" data).bind Json.asStr
  let sections ← decodeSecList ((List.lookup "sections" data).getD (.arr []))
  let tables ← decodeList Table.fromDict (← tablesData.asArr)
  let references ← decodeList Reference.fromDict (← refsData.asArr)
  pure ⟨title, sections, tables, references, postInit now metadata2⟩

/-! ## Parser state (`DocumentParser`)

The Python object graph is mutated in place: `self.section_stack` holds
aliases into the tree under `self.document.sections`.  Here the stack is a
zipper.  `openPath` lists the currently open sections from shallowest to
deepest, each stored *without* its currently open last child (that child is
the next path entry); `closePath` folds the path back into the single
top-level section it denotes.  `doneSections` are the fully closed
top-level sections.  `stackRooted` records whether the path's root is
attached to the *current* document: a fresh `parse_file` call replaces
`self.document` but not `self.section_stack`, so a stale path mutates the
previous document, invisibly to the current one. -/

structure ParserState where
  doneSections : List Sec
  openPath : List Sec
  stackRooted : Bool
  tableBuffer : List String
  isInTable : Bool
  tableCount : Nat
  seenDocumentTitle : Bool
  title : String
  tables : List Table
  references : List Reference
  currentContent : List String

/-- `DocumentParser.__init__`. -/
def initParser : ParserState :=
  ⟨[], [], false, [], false, 0, false, "", [], [], []⟩

/-- Fold an open path back into the top-level section it denotes: each
entry becomes the last child of its predecessor. -/
def closePath : List Sec → Option Sec
  | [] => none
  | s :: rest =>
    match closePath rest with
    | none => some s
    | some c => some (.mk s.name s.raw_name s.content s.level (s.subsections ++ [c]))

/-- Apply `f` to the last element of a list (the deepest open section,
Python's `self.current_section`). -/
def updateLast (f : Sec → Sec) : List Sec → List Sec
  | [] => []
  | [s] => [f s]
  | s :: rest => s :: updateLast f rest

/-- `self.current_section.content += "\n".join(current_content) + "\n"`. -/
def appendContent (s : ParserState) : ParserState :=
  { s with openPath := updateLast (fun sec =>
      .mk sec.name sec.raw_name
        (sec.content ++ String.intercalate "\n" s.currentContent ++ "\n")
        sec.level sec.subsections) s.openPath }

/-- `self.document.add_section(section); self.section_stack = [section]`:
the old path closes into the document (when its root is attached there) and
the new section becomes the root of a fresh path. -/
def addAtRoot (s : ParserState) (newSec : Sec) : ParserState :=
  let newDone :=
    if s.stackRooted then
      match closePath s.openPath with
      | some c => s.doneSections ++ [c]
      | none => s.doneSections
    else s.doneSections
  { s with doneSections := newDone, openPath := [newSec], stackRooted := true }

/-- The parent-seeking scan of `_process_section_header` (lines 167-176):
Python walks `section_stack` from the top down and attaches to the first
entry with a smaller level, truncating the stack above it.  In zipper form
that is: find the *last* path entry with `level < L`; the part of the path
above it closes into that entry's stored subsections; the new section
becomes its open child.  `none` when no entry qualifies. -/
def attachRec (L : Nat) (newSec : Sec) : List Sec → Option (List Sec)
  | [] => none
  | s :: rest =>
    match attachRec L newSec rest with
    | some p' => some (s :: p')
    | none =>
      if s.level < L then
        let s' :=
          match closePath rest with
          | none => s
          | some c => Sec.mk s.name s.raw_name s.content s.level (s.subsections ++ [c])
        some [s', newSec]
      else none

/-- `DocumentParser._process_section_header` (the state is expected to have
`current_content` already flushed by the caller, as in `parse_file`). -/
def processSectionHeader (s : ParserState) (titlePart : String) (level : Nat)
    (numberPart : String) : ParserState :=
  let raw_name := strip (if numberPart = "" then titlePart
                         else numberPart ++ " " ++ titlePart)
  if level = 1 && !s.seenDocumentTitle then
    { s with seenDocumentTitle := true }
  else
    let newSec : Sec := .mk (cleanSectionName raw_name) raw_name "" level []
    if level = 1 then addAtRoot s newSec
    else
      match attachRec level newSec s.openPath with
      | some p' => { s with openPath := p' }
      | none => addAtRoot s newSec

/-- `header_line.strip("|").split("|")` with each cell `.strip()`ed. -/
def splitCells (l : String) : List String :=
  ((splitOnBar (stripBars l.toList)).map (fun cs => String.mk (stripList cs)))

/-- The last `min 5 n` elements of a list (Python `lines[-5:]`). -/
def lastFive (xs : List String) : List String :=
  xs.drop (xs.length - 5)

/-- Python `str.splitlines()` over the line-break characters that can occur
here (`\n`, `\r\n`, `\r`, `\x0b`, `\x0c`); no trailing empty line. -/
def splitlinesAux : List Char → List Char → List (List Char)
  | [], acc => if acc.isEmpty then [] else [acc.reverse]
  | '\r' :: '\n' :: rest, acc => acc.reverse :: splitlinesAux rest []
  | c :: rest, acc =>
    if c = '\n' || c = '\r' || c = '\x0b' || c = '\x0c' then
      acc.reverse :: splitlinesAux rest []
    else splitlinesAux rest (c :: acc)

def splitlines (s : String) : List String :=
  (splitlinesAux s.toList []).map String.mk

/-- `DocumentParser._process_table_buffer` (always called with the default
empty `caption` argument). -/
def processTableBuffer (s : ParserState) : ParserState :=
  if s.tableBuffer.isEmpty then { s with isInTable := false }
  else
    let headers : List String :=
      if s.tableBuffer.length ≥ 2 then
        match s.tableBuffer with
        | header_line :: _ =>
          if header_line.toList.contains '|' then splitCells header_line else []
        | [] => []
      else []
    let rows : List (List String) :=
      if s.tableBuffer.length ≥ 2 then
        let dataRows := if s.tableBuffer.length > 2 then s.tableBuffer.drop 2 else []
        (dataRows.filter (fun l => !l.isEmpty && l.toList.contains '|')).map splitCells
      else []
    let n := s.tableCount + 1
    let defaultCap := "Table " ++ toString n
    let caption :=
      match s.openPath.getLast? with
      | none => defaultCap
      | some sec =>
        match (lastFive (splitlines sec.content)).find?
            (fun l => captionMatch l.toList) with
        | some l => strip l
        | none => defaultCap
    { s with tableCount := n,
             tables := s.tables ++ [⟨"T" ++ toString n, caption, headers, rows⟩],
             tableBuffer := [], isInTable := false }

/-- One iteration of the `for line in f` loop of `parse_file`. -/
def stepLine (s : ParserState) (raw : String) : ParserState :=
  let line := rstrip raw
  match headerMatch line with
  | some (lvl, num, tp) =>
    let s1 := if !s.currentContent.isEmpty && !s.openPath.isEmpty
              then appendContent s else s
    processSectionHeader { s1 with currentContent := [] } tp lvl num
  | none =>
    if isTableRow line.toList || isTableSeparator line.toList then
      let s1 :=
        if !s.currentContent.isEmpty && !s.isInTable then
          { (if !s.openPath.isEmpty then appendContent s else s) with
            currentContent := [] }
        else s
      { s1 with tableBuffer := s1.tableBuffer ++ [line], isInTable := true }
    else if s.isInTable && (stripList line.toList).isEmpty then
      processTableBuffer s
    else
      let s1 :=
        match refMatch line.toList with
        | some pr => { s with references := s.references ++ [⟨pr.1, pr.2⟩] }
        | none => s
      if !s1.openPath.isEmpty
      then { s1 with currentContent := s1.currentContent ++ [line] }
      else s1

/-- The scan loop of `parse_file`. -/
def runLines (s : ParserState) (lines : List String) : ParserState :=
  lines.foldl stepLine s

/-- `DocumentParser._finalize_parsing` (its `_validate_document` call only
logs and changes no state; see `missingSections` below). -/
def finalizeParsing (s : ParserState) : ParserState :=
  if s.isInTable && !s.tableBuffer.isEmpty then processTableBuffer s else s

/-- The sections list of `self.document`: closed top-level sections plus,
when the open path is rooted in this document, the section it denotes. -/
def stateSections (s : ParserState) : List Sec :=
  s.doneSections ++ (if s.stackRooted then (closePath s.openPath).toList else [])

/-- Read `self.document` off the parser state.  The metadata dictionary is
exactly the `created_at` stamp `__post_init__` added at document creation;
nothing in `parse_file` touches it afterwards. -/
def stateDoc (s : ParserState) (now : String) : Document :=
  ⟨s.title, stateSections s, s.tables, s.references, [("created_at", .str now)]⟩

/-- The re-initialization `parse_file` performs: only `self.document` is
replaced (fresh title, empty sections/tables/references) and the local
`current_content` starts empty; stack, buffer, counters and the title flag
all carry over from the previous call.  A carried-over stack is no longer
rooted in the (new) document. -/
def parseInitState (s0 : ParserState) (title : String) : ParserState :=
  { s0 with doneSections := [], stackRooted := false, tables := [],
            references := [], title := title, currentContent := [] }

/-- After the scan loop: flush any remaining `current_content`, then
`_finalize_parsing`. -/
def postLoop (s : ParserState) : ParserState :=
  finalizeParsing
    (if !s.currentContent.isEmpty && !s.openPath.isEmpty then appendContent s else s)

/-- `DocumentParser.parse_file` on a list of already-read lines (the I/O,
existence check and filename-derived default title are the caller's
concern). -/
def parseFileLines (s0 : ParserState) (lines : List String) (title now : String) :
    Document × ParserState :=
  let s4 := postLoop (runLines (parseInitState s0 title) lines)
  (stateDoc s4 now, s4)

/-- `parse_document`: a fresh `DocumentParser` per call. -/
def parseDocument (lines : List String) (title now : String) : Document :=
  (parseFileLines initParser lines title now).1

/-! ## Advisory validation (`_validate_document`) -/

def expectedSections : List String :=
  ["Executive Summary", "Platform Overview", "Core Capabilities",
   "Data Management Architecture", "User Experience and Interface Design",
   "Technological Foundations", "Competitive Differentiation",
   "Lessons Learned"]

/-- The `found_sections` list of `_validate_document`: top-level section
names plus, if the *first* top-level section has subsections, the names of
its *direct* subsections. -/
def knownNames (d : Document) : List String :=
  let found := d.sections.map Sec.name
  match d.sections with
  | [] => found
  | s0 :: _ => if s0.subsections.isEmpty then found
               else found ++ s0.subsections.map Sec.name

/-- The `missing_sections` diagnostic list: expected names with no
case-insensitive substring match among `knownNames` (only logged as a
warning in Python; never raised). -/
def missingSections (d : Document) : List String :=
  expectedSections.filter (fun e =>
    !(knownNames d).any (fun n => containsSub (lowerStr e) (lowerStr n)))

/-! ## Concrete parses used by counterexamples -/

/-- A single buffered table line terminated by a blank line. -/
def oneLineTableInput : List String := ["|a|b|", ""]

/-- Two buffered table lines followed by a header line. -/
def headerAfterTableInput : List String := ["|a|b|", "|---|---|", "## X"]

/-- An expected section name occurring only as a subsection of the *second*
top-level section. -/
def deepSectionInput : List String := ["# T", "## A", "## B", "### Executive Summary"]

/-- C1 (counterexample): parsing a single table-shaped line followed by a
blank line *does* produce a Table — `_process_table_buffer` only discards
an *empty* buffer; a 1-line buffer falls through, producing a table with
empty headers and rows. -/
theorem c1_counterexample :
    (parseDocument oneLineTableInput "t" "now").tables =
      [⟨"T1", "Table 1", [], []⟩] := by
  rfl

/-- C2 (counterexample): after scanning two table lines and then a header
line, the table buffer still holds both lines and no Table has been
produced — a Header line does not terminate table buffering. -/
theorem c2_counterexample :
    (runLines { initParser with title := "t" } headerAfterTableInput).tableBuffer =
        ["|a|b|", "|---|---|"] ∧
      (runLines { initParser with title := "t" } headerAfterTableInput).tables = [] := by
  constructor <;> rfl

/-- C5 (counterexample): the line `"####### X"` has a run of 7 leading
marker characters, yet it *is* classified as a Header, with level 6 (not 7)
and the seventh `#` absorbed into the title text. -/
theorem c5_counterexample :
    headerMatch "####### X" = some (6, "", "# X") ∧
      ("####### X".toList.takeWhile (fun c => c = '#')).length = 7 := by
  constructor <;> rfl

/-- C6 (counterexample): a document whose only "Executive Summary" section
sits under the *second* top-level section.  The advisory check never sees
it — the name is a known section name at depth 2 but is still reported
missing, because the check only scans top-level names and the first
top-level section's direct subsections. -/
theorem c6_counterexample :
    (parseDocument deepSectionInput "t" "now").sections.map
        (fun s => (s.name, s.level, s.subsections.map Sec.name)) =
      [("A", 2, []), ("B", 2, ["Executive Summary"])] ∧
    "Executive Summary" ∈ missingSections (parseDocument deepSectionInput "t" "now") := by
  refine ⟨by rfl, ?_⟩
  have h : missingSections (parseDocument deepSectionInput "t" "now") =
      expectedSections := by rfl
  rw [h]
  simp [expectedSections]

/-- C8 (counterexample): two parses of the same lines and title performed
at different wall-clock instants yield *unequal* Documents: the
`created_at` entry `__post_init__` stamps into the metadata differs. -/
theorem c8_counterexample :
    parseDocument [] "t" "2024-01-01T00:00:00" ≠
      parseDocument [] "t" "2024-01-01T00:00:01" := by
  intro h
  have hm := congrArg Document.metadata h
  have h1 : (parseDocument [] "t" "2024-01-01T00:00:00").metadata =
      [("created_at", Json.str "2024-01-01T00:00:00")] := rfl
  have h2 : (parseDocument [] "t" "2024-01-01T00:00:01").metadata =
      [("created_at", Json.str "2024-01-01T00:00:01")] := rfl
  rw [h1, h2] at hm
  simp only [List.cons.injEq, Prod.mk.injEq, Json.str.injEq, and_true, true_and] at hm
  exact absurd hm (by decide)

/-! ## Frame lemmas: which state components each operation can touch -/

theorem appendContent_frame (s : ParserState) :
    (appendContent s).doneSections = s.doneSections ∧
    (appendContent s).stackRooted = s.stackRooted ∧
    (appendContent s).tableBuffer = s.tableBuffer ∧
    (appendContent s).isInTable = s.isInTable ∧
    (appendContent s).tableCount = s.tableCount ∧
    (appendContent s).seenDocumentTitle = s.seenDocumentTitle ∧
    (appendContent s).title = s.title ∧
    (appendContent s).tables = s.tables ∧
    (appendContent s).references = s.references ∧
    (appendContent s).currentContent = s.currentContent := by
  unfold appendContent
  repeat' constructor

theorem processSectionHeader_frame (s : ParserState) (tp : String) (lvl : Nat)
    (num : String) :
    (processSectionHeader s tp lvl num).tableBuffer = s.tableBuffer ∧
    (processSectionHeader s tp lvl num).isInTable = s.isInTable ∧
    (processSectionHeader s tp lvl num).tableCount = s.tableCount ∧
    (processSectionHeader s tp lvl num).tables = s.tables ∧
    (processSectionHeader s tp lvl num).references = s.references ∧
    (processSectionHeader s tp lvl num).title = s.title ∧
    (processSectionHeader s tp lvl num).currentContent = s.currentContent := by
  simp only [processSectionHeader, addAtRoot]
  repeat' split
  all_goals repeat' constructor

theorem processTableBuffer_frame (s : ParserState) :
    (processTableBuffer s).doneSections = s.doneSections ∧
    (processTableBuffer s).openPath = s.openPath ∧
    (processTableBuffer s).stackRooted = s.stackRooted ∧
    (processTableBuffer s).seenDocumentTitle = s.seenDocumentTitle ∧
    (processTableBuffer s).title = s.title ∧
    (processTableBuffer s).references = s.references ∧
    (processTableBuffer s).currentContent = s.currentContent := by
  simp only [processTableBuffer]
  repeat' split
  all_goals repeat' constructor

/-- C1 (amended): `_process_table_buffer` discards an *empty* buffer
without producing a Table, but a buffer of exactly one line falls through
the `len >= 2` structure analysis and still produces a Table — with the
next sequential id and empty headers and rows. -/
theorem c1_small_buffer (s : ParserState) :
    (s.tableBuffer = [] → (processTableBuffer s).tables = s.tables) ∧
    (∀ l, s.tableBuffer = [l] →
      ∃ cap, (processTableBuffer s).tables =
        s.tables ++ [⟨"T" ++ toString (s.tableCount + 1), cap, [], []⟩]) := by
  constructor
  · intro h
    unfold processTableBuffer
    simp [h]
  · intro l h
    unfold processTableBuffer
    simp only [h]
    norm_num

/-- Witness for `c1_small_buffer`: on the concrete state holding the single
buffered line `"|a|b|"`, the flush produces a table with empty headers and
rows. -/
theorem c1_small_buffer_witness :
    (∃ cap, (processTableBuffer { initParser with tableBuffer := ["|a|b|"] }).tables =
      { initParser with tableBuffer := ["|a|b|"] }.tables ++
        [⟨"T" ++ toString ({ initParser with tableBuffer := ["|a|b|"] }.tableCount + 1),
          cap, [], []⟩]) ∧
    (processTableBuffer initParser).tables = initParser.tables :=
  ⟨(c1_small_buffer { initParser with tableBuffer := ["|a|b|"] }).2 "|a|b|" rfl,
   (c1_small_buffer initParser).1 rfl⟩

/-- C2 (amended): table buffering is terminated only by a blank line
encountered while buffering, or by end-of-input finalization.  A Header
line does *not* terminate buffering: it leaves the table buffer, the
buffering flag and the table list untouched. -/
theorem c2_buffer_termination (s : ParserState) (ℓ : String) :
    (∀ lvl num tp, headerMatch (rstrip ℓ) = some (lvl, num, tp) →
      (stepLine s ℓ).tableBuffer = s.tableBuffer ∧
      (stepLine s ℓ).isInTable = s.isInTable ∧
      (stepLine s ℓ).tables = s.tables) ∧
    (s.isInTable = true → rstrip ℓ = "" → stepLine s ℓ = processTableBuffer s) ∧
    (s.isInTable = true → s.tableBuffer ≠ [] → finalizeParsing s = processTableBuffer s) := by
  refine ⟨?_, ?_, ?_⟩
  · intro lvl num tp hm
    simp only [stepLine, hm]
    refine ⟨?_, ?_, ?_⟩
    · rw [(processSectionHeader_frame _ tp lvl num).1]
      split
      · exact (appendContent_frame s).2.2.1
      · rfl
    · rw [(processSectionHeader_frame _ tp lvl num).2.1]
      split
      · exact (appendContent_frame s).2.2.2.1
      · rfl
    · rw [(processSectionHeader_frame _ tp lvl num).2.2.2.1]
      split
      · exact (appendContent_frame s).2.2.2.2.2.2.2.1
      · rfl
  · intro hin h0
    have hnone : headerMatch "" = none := rfl
    have hrow : isTableRow "".toList = false := rfl
    have hsep : isTableSeparator "".toList = false := rfl
    have hstrip : (stripList "".toList).isEmpty = true := rfl
    simp only [stepLine, h0, hnone, hrow, hsep, hstrip, hin, Bool.or_self,
      Bool.false_or, Bool.and_self, Bool.and_true, if_false, if_true,
      Bool.false_eq_true, ite_false, ite_true]
  · intro hin hbuf
    have : (!s.tableBuffer.isEmpty) = true := by
      simp [List.isEmpty_iff, hbuf]
    simp only [finalizeParsing, hin, this, Bool.and_self, if_true, ite_true]

/-- A state in the middle of buffering a two-line table. -/
def c2DemoState : ParserState :=
  { initParser with tableBuffer := ["|a|b|", "|---|---|"], isInTable := true }

/-- Witness for `c2_buffer_termination` at the concrete buffering state:
the header line `"## X"` leaves the buffer alone, while a blank line and
finalization both flush it. -/
theorem c2_buffer_termination_witness :
    ((stepLine c2DemoState "## X").tableBuffer = c2DemoState.tableBuffer ∧
     (stepLine c2DemoState "## X").isInTable = c2DemoState.isInTable ∧
     (stepLine c2DemoState "## X").tables = c2DemoState.tables) ∧
    stepLine c2DemoState "" = processTableBuffer c2DemoState ∧
    finalizeParsing c2DemoState = processTableBuffer c2DemoState :=
  ⟨(c2_buffer_termination c2DemoState "## X").1 2 "" "X" rfl,
   (c2_buffer_termination c2DemoState "").2.1 rfl rfl,
   (c2_buffer_termination c2DemoState "").2.2 rfl (by decide)⟩

/-- C8 (amended): parsing is deterministic in the lines and title — two
parses of the same input agree on title, section tree, tables and
references — but the metadata carries the wall-clock `created_at` stamp,
so the full Documents (metadata included) are equal exactly when the two
parses see the same clock value. -/
theorem c8_determinism (lines : List String) (title n1 n2 : String) :
    (parseDocument lines title n1).title = (parseDocument lines title n2).title ∧
    (parseDocument lines title n1).sections = (parseDocument lines title n2).sections ∧
    (parseDocument lines title n1).tables = (parseDocument lines title n2).tables ∧
    (parseDocument lines title n1).references = (parseDocument lines title n2).references ∧
    (n1 = n2 → parseDocument lines title n1 = parseDocument lines title n2) :=
  ⟨rfl, rfl, rfl, rfl, fun h => by rw [h]⟩

/-- Witness for `c8_determinism` at a concrete input and coinciding clock
values. -/
theorem c8_determinism_witness :
    (parseDocument ["# T", "x"] "t" "now").sections =
      (parseDocument ["# T", "x"] "t" "now").sections ∧
    parseDocument ["# T", "x"] "t" "now" = parseDocument ["# T", "x"] "t" "now" :=
  ⟨(c8_determinism ["# T", "x"] "t" "now" "now").2.1,
   (c8_determinism ["# T", "x"] "t" "now" "now").2.2.2.2 rfl⟩

/-- Helper: a line the citation pattern accepts starts with `'['`. -/
theorem refMatch_head (cs : List Char) (pr : String × String)
    (h : refMatch cs = some pr) : ∃ rest, cs = '[' :: rest := by
  match cs with
  | [] => simp [refMatch] at h
  | c :: rest =>
    by_cases hc : c = '['
    · exact ⟨rest, by rw [hc]⟩
    · exfalso
      have hn : refMatch (c :: rest) = none := by
        unfold refMatch
        split
        · next heq =>
          injection heq with h1 h2
          exact absurd h1 hc
        · rfl
      rw [hn] at h
      exact Option.noConfusion h

/-- C9 (confirmed): a line matching the citation shape that is processed
while a section is open is appended to the reference list *and* to the
current content accumulation (which later flushes into the open section's
content) — citation lines are not removed from section content. -/
theorem c9_citation_lines (s : ParserState) (ℓ : String) (pr : String × String) :
    refMatch (rstrip ℓ).toList = some pr → s.openPath ≠ [] →
    (stepLine s ℓ).references = s.references ++ [⟨pr.1, pr.2⟩] ∧
    (stepLine s ℓ).currentContent = s.currentContent ++ [rstrip ℓ] := by
  intro hr hop
  obtain ⟨rest, hcs⟩ := refMatch_head _ _ hr
  have hhm : headerMatch (rstrip ℓ) = none := by
    unfold headerMatch
    rw [hcs]
    simp [hashJs, List.takeWhile_cons]
  have hrow : isTableRow (rstrip ℓ).toList = false := by rw [hcs]; rfl
  have hsep : isTableSeparator (rstrip ℓ).toList = false := by rw [hcs]; rfl
  have hblank : (stripList (rstrip ℓ).toList).isEmpty = false := by
    rw [hcs]
    rw [Bool.eq_false_iff]
    intro hemp
    rw [List.isEmpty_iff] at hemp
    unfold stripList rstripList at hemp
    rw [List.dropWhile_cons] at hemp
    simp only [show isWs '[' = false from rfl, Bool.false_eq_true, if_false] at hemp
    have h2 := congrArg List.reverse hemp
    simp only [List.reverse_reverse, List.reverse_nil] at h2
    rw [List.dropWhile_eq_nil_iff] at h2
    have h3 := h2 '[' (by simp)
    simp [isWs] at h3
  have hopb : (!s.openPath.isEmpty) = true := by
    simp [List.isEmpty_iff, hop]
  simp only [stepLine, hhm, hrow, hsep, hblank, Bool.or_self, Bool.and_false,
    Bool.false_eq_true, if_false, ite_false, hr, hopb, if_true, ite_true]
  constructor <;> trivial

/-- Witness for `c9_citation_lines` on a concrete open-section state and
citation line. -/
theorem c9_citation_lines_witness :
    (stepLine { initParser with openPath := [Sec.mk "A" "A" "" 2 []] }
        "[1] Example citation.").references =
      [] ++ [⟨"1", "Example citation."⟩] ∧
    (stepLine { initParser with openPath := [Sec.mk "A" "A" "" 2 []] }
        "[1] Example citation.").currentContent = [] ++ ["[1] Example citation."] := by
  have h := c9_citation_lines { initParser with openPath := [Sec.mk "A" "A" "" 2 []] }
    "[1] Example citation." ("1", "Example citation.") rfl (by simp)
  exact h

/-- C6 (amended): the advisory coverage check matches each expected name,
case-insensitively and by substring, against the names of the *top-level*
sections plus the direct subsections of the *first* top-level section only
(not every section at every depth); expected names with no match form the
non-fatal `missing_sections` diagnostic list. -/
theorem c6_section_coverage (d : Document) (e : String) :
    e ∈ missingSections d ↔
      e ∈ expectedSections ∧
      ∀ nm ∈ (d.sections.map Sec.name ++
          (match d.sections with
           | [] => []
           | s0 :: _ => if s0.subsections.isEmpty then []
                        else s0.subsections.map Sec.name)),
        containsSub (lowerStr e) (lowerStr nm) = false := by
  have hk : knownNames d = d.sections.map Sec.name ++
      (match d.sections with
       | [] => []
       | s0 :: _ => if s0.subsections.isEmpty then []
                    else s0.subsections.map Sec.name) := by
    unfold knownNames
    match d.sections with
    | [] => simp
    | s0 :: rest =>
      split <;> (try injections) <;> subst_vars <;> split <;> simp
  unfold missingSections
  simp only [hk, List.mem_filter, List.any_eq_false, Bool.not_eq_true',
    Bool.not_eq_true]

/-! ## Sequential table ids (C7, and the C10 cross-parse offset)

`TInv k s`: the tables accumulated so far carry ids `T(k+1) ... T(k+n)`,
where `k` is the value `self.table_count` had when the current document was
created.  A fresh parser starts at `k = 0`. -/

def TInv (k : Nat) (s : ParserState) : Prop :=
  s.tableCount = k + s.tables.length ∧
  s.tables.map Table.id =
    (List.range s.tables.length).map (fun i => "T" ++ toString (k + i + 1))

theorem TInv_of_frame {k : Nat} {s s' : ParserState} (h : TInv k s)
    (ht : s'.tables = s.tables) (hc : s'.tableCount = s.tableCount) : TInv k s' := by
  unfold TInv at h ⊢
  rw [ht, hc]
  exact h

theorem processTableBuffer_TInv (k : Nat) (s : ParserState) (h : TInv k s) :
    TInv k (processTableBuffer s) := by
  obtain ⟨h1, h2⟩ := h
  unfold processTableBuffer
  split
  · exact ⟨h1, h2⟩
  · constructor
    · show s.tableCount + 1 = k + (s.tables ++ [_]).length
      rw [List.length_append, h1]
      simp only [List.length_cons, List.length_nil]
      omega
    · show (s.tables ++ [_]).map Table.id =
        (List.range (s.tables ++ [_]).length).map (fun i => "T" ++ toString (k + i + 1))
      rw [List.map_append, h2, List.length_append]
      simp only [List.length_cons, List.length_nil, List.map_cons, List.map_nil,
        Nat.zero_add]
      rw [List.range_succ, List.map_append]
      congr 1
      simp only [List.map_cons, List.map_nil, List.cons.injEq, and_true]
      show "T" ++ toString (s.tableCount + 1) = "T" ++ toString (k + s.tables.length + 1)
      rw [h1]

theorem stepLine_tables_cases (s : ParserState) (ℓ : String) :
    stepLine s ℓ = processTableBuffer s ∨
    ((stepLine s ℓ).tables = s.tables ∧ (stepLine s ℓ).tableCount = s.tableCount) := by
  simp only [stepLine]
  split
  · next lvl num tp _ =>
    right
    refine ⟨?_, ?_⟩
    · rw [(processSectionHeader_frame _ tp lvl num).2.2.2.1]
      repeat' split
      all_goals first
        | rfl
        | exact (appendContent_frame s).2.2.2.2.2.2.2.1
    · rw [(processSectionHeader_frame _ tp lvl num).2.2.1]
      repeat' split
      all_goals first
        | rfl
        | exact (appendContent_frame s).2.2.2.2.1
  · split
    · right
      refine ⟨?_, ?_⟩ <;>
        · repeat' split
          all_goals first
            | rfl
            | exact (appendContent_frame s).2.2.2.2.2.2.2.1
            | exact (appendContent_frame s).2.2.2.2.1
    · split
      · left; rfl
      · right
        refine ⟨?_, ?_⟩ <;>
          · repeat' split
            all_goals rfl

theorem stepLine_TInv (k : Nat) (s : ParserState) (ℓ : String) (h : TInv k s) :
    TInv k (stepLine s ℓ) := by
  rcases stepLine_tables_cases s ℓ with hc | ⟨ht, hcnt⟩
  · rw [hc]
    exact processTableBuffer_TInv k s h
  · exact TInv_of_frame h ht hcnt

theorem runLines_TInv (k : Nat) (lines : List String) (s : ParserState)
    (h : TInv k s) : TInv k (runLines s lines) := by
  induction lines generalizing s with
  | nil => exact h
  | cons ℓ rest ih =>
    simp only [runLines, List.foldl_cons] at *
    exact ih _ (stepLine_TInv k s ℓ h)

theorem finalizeParsing_TInv (k : Nat) (s : ParserState) (h : TInv k s) :
    TInv k (finalizeParsing s) := by
  unfold finalizeParsing
  split
  · exact processTableBuffer_TInv _ _ h
  · exact h

theorem postLoop_TInv (k : Nat) (s : ParserState) (h : TInv k s) :
    TInv k (postLoop s) := by
  unfold postLoop
  apply finalizeParsing_TInv
  split
  · exact TInv_of_frame h (appendContent_frame _).2.2.2.2.2.2.2.1
      (appendContent_frame _).2.2.2.2.1
  · exact h

theorem parseFileLines_TInv (s0 : ParserState) (lines : List String)
    (title now : String) : TInv s0.tableCount (parseFileLines s0 lines title now).2 := by
  have h1 : TInv s0.tableCount (parseInitState s0 title) := by
    constructor <;> simp [parseInitState]
  exact postLoop_TInv _ _ (runLines_TInv s0.tableCount lines _ h1)

/-- C7 (confirmed): the ids of a parsed document's tables, in list order,
are exactly `"T1", "T2", ...` — unique, sequential, starting at `"T1"`. -/
theorem c7_table_ids (lines : List String) (title now : String) :
    (parseDocument lines title now).tables.map Table.id =
      (List.range (parseDocument lines title now).tables.length).map
        (fun i => "T" ++ toString (i + 1)) := by
  have h := (parseFileLines_TInv initParser lines title now).2
  simp only [show initParser.tableCount = 0 from rfl, Nat.zero_add] at h
  exact h

/-! ## The first top-level section is stable (C10)

Once the document under construction has a first top-level section, no
later parsing step changes that section's raw name or level. -/

/-- The raw name and level of the first top-level section of the document
under construction, if any.  Once set, no later parsing step changes it. -/
def headInfo (s : ParserState) : Option (String × Nat) :=
  (stateSections s).head?.map (fun sec => (sec.raw_name, sec.level))

theorem closePath_cons (x : Sec) (rest : List Sec) :
    ∃ c, closePath (x :: rest) = some c ∧ c.raw_name = x.raw_name ∧
      c.level = x.level ∧ c.name = x.name := by
  rw [closePath]
  cases hc : closePath rest with
  | none => exact ⟨x, rfl, rfl, rfl, rfl⟩
  | some c' => exact ⟨_, rfl, rfl, rfl, rfl⟩

theorem attachRec_head (L : Nat) (n : Sec) (p p' : List Sec)
    (h : attachRec L n p = some p') :
    ∃ x rest x' rest', p = x :: rest ∧ p' = x' :: rest' ∧
      x'.raw_name = x.raw_name ∧ x'.level = x.level ∧ x'.name = x.name := by
  match p with
  | [] => simp [attachRec] at h
  | x :: rest =>
    rw [attachRec] at h
    split at h
    · injection h with h
      exact ⟨x, rest, x, _, rfl, h.symm, rfl, rfl, rfl⟩
    · split at h
      · injection h with h
        exact ⟨x, rest, _, [n], rfl, h.symm,
          by cases closePath rest <;> rfl,
          by cases closePath rest <;> rfl,
          by cases closePath rest <;> rfl⟩
      · exact absurd h (by simp)

theorem headInfo_addAtRoot (s : ParserState) (n : Sec) (x : String × Nat)
    (h : headInfo s = some x) : headInfo (addAtRoot s n) = some x := by
  unfold headInfo stateSections at h ⊢
  unfold addAtRoot
  cases hd : s.doneSections with
  | cons a d' =>
    rw [hd] at h
    simp only [List.cons_append, List.head?_cons, Option.map_some] at h
    split <;> split <;>
      simp_all [List.cons_append, List.head?_cons]
  | nil =>
    rw [hd] at h
    simp only [List.nil_append] at h
    cases hr : s.stackRooted with
    | false => rw [hr] at h; simp at h
    | true =>
      rw [hr] at h
      simp only [if_true] at h
      cases hp : s.openPath with
      | nil => rw [hp] at h; simp [closePath] at h
      | cons x0 rest =>
        rw [hp] at h
        obtain ⟨c, hc, hcr, hcl, _⟩ := closePath_cons x0 rest
        rw [hc] at h
        simp only [Option.toList_some, List.head?_cons, Option.map_some] at h
        simp only [hr, if_true, hp, hc, hd]
        obtain ⟨c2, hc2, hc2r, hc2l, _⟩ := closePath_cons n []
        rw [hc2]
        simp only [Option.toList_some, List.nil_append, List.cons_append,
          List.head?_cons, Option.map_some]
        exact h

theorem headOf_eq (D : List Sec) (R : Bool) (p q : List Sec)
    (h : (p.head?).map (fun a => (a.raw_name, a.level)) =
         (q.head?).map (fun a => (a.raw_name, a.level))) :
    ((D ++ if R then (closePath p).toList else []).head?).map
        (fun a => (a.raw_name, a.level)) =
      ((D ++ if R then (closePath q).toList else []).head?).map
        (fun a => (a.raw_name, a.level)) := by
  cases D with
  | cons a d => simp
  | nil =>
    cases R with
    | false => simp
    | true =>
      simp only [List.nil_append, if_true]
      cases p with
      | nil =>
        cases q with
        | nil => rfl
        | cons xq rq => simp at h
      | cons xp rp =>
        cases q with
        | nil => simp at h
        | cons xq rq =>
          simp only [List.head?_cons, Option.map_some, Option.some.injEq] at h
          obtain ⟨c1, hc1, r1, l1, _⟩ := closePath_cons xp rp
          obtain ⟨c2, hc2, r2, l2, _⟩ := closePath_cons xq rq
          rw [hc1, hc2]
          simpa [r1, l1, r2, l2] using h

theorem headInfo_attach (s : ParserState) {L : Nat} {n : Sec} {p' : List Sec}
    (hp' : attachRec L n s.openPath = some p') :
    headInfo { s with openPath := p' } = headInfo s := by
  obtain ⟨x0, rest, x', rest', hp, hpp, hraw, hlvl, _⟩ :=
    attachRec_head L n s.openPath p' hp'
  have hh : (p'.head?).map (fun a => (a.raw_name, a.level)) =
      ((s.openPath).head?).map (fun a => (a.raw_name, a.level)) := by
    rw [hp, hpp]
    simp [hraw, hlvl]
  have e1 : stateSections { s with openPath := p' } =
      s.doneSections ++ (if s.stackRooted then (closePath p').toList else []) := rfl
  have e2 : stateSections s =
      s.doneSections ++ (if s.stackRooted then (closePath s.openPath).toList else []) := rfl
  show (stateSections _).head?.map _ = (stateSections s).head?.map _
  rw [e1, e2]
  exact headOf_eq s.doneSections s.stackRooted p' s.openPath hh

theorem headInfo_processSectionHeader (s : ParserState) (tp : String) (lvl : Nat)
    (num : String) (x : String × Nat) (h : headInfo s = some x) :
    headInfo (processSectionHeader s tp lvl num) = some x := by
  simp only [processSectionHeader]
  repeat' split
  all_goals first
    | exact h
    | exact headInfo_addAtRoot s _ x h
    | (rename_i p' hp'; rw [headInfo_attach s hp']; exact h)

theorem headInfo_processTableBuffer (s : ParserState) :
    headInfo (processTableBuffer s) = headInfo s := by
  unfold headInfo stateSections
  rw [(processTableBuffer_frame s).1, (processTableBuffer_frame s).2.1,
    (processTableBuffer_frame s).2.2.1]

theorem updateLast_head_map (f : Sec → Sec)
    (hf : ∀ a, (f a).raw_name = a.raw_name ∧ (f a).level = a.level) (p : List Sec) :
    ((updateLast f p).head?).map (fun a => (a.raw_name, a.level)) =
      (p.head?).map (fun a => (a.raw_name, a.level)) := by
  cases p with
  | nil => rfl
  | cons x rest =>
    cases rest with
    | nil => simp [updateLast, (hf x).1, (hf x).2]
    | cons y r => simp [updateLast]

theorem headInfo_appendContent (s : ParserState) :
    headInfo (appendContent s) = headInfo s := by
  have e1 : stateSections (appendContent s) =
      s.doneSections ++ (if s.stackRooted then
        (closePath (updateLast (fun sec =>
          Sec.mk sec.name sec.raw_name
            (sec.content ++ String.intercalate "\n" s.currentContent ++ "\n")
            sec.level sec.subsections) s.openPath)).toList else []) := rfl
  have e2 : stateSections s =
      s.doneSections ++ (if s.stackRooted then (closePath s.openPath).toList else []) := rfl
  show (stateSections _).head?.map _ = (stateSections s).head?.map _
  rw [e1, e2]
  exact headOf_eq s.doneSections s.stackRooted _ s.openPath
    (updateLast_head_map (fun sec =>
      Sec.mk sec.name sec.raw_name
        (sec.content ++ String.intercalate "\n" s.currentContent ++ "\n")
        sec.level sec.subsections) (fun a => ⟨rfl, rfl⟩) s.openPath)

theorem headInfo_stepLine (s : ParserState) (ℓ : String) (x : String × Nat)
    (h : headInfo s = some x) : headInfo (stepLine s ℓ) = some x := by
  have hcc : ∀ (s' : ParserState), headInfo { s' with currentContent := ([] : List String) } = headInfo s' :=
    fun s' => rfl
  have htb : ∀ (s' : ParserState) (b : List String) (f : Bool),
      headInfo { s' with tableBuffer := b, isInTable := f } = headInfo s' :=
    fun s' b f => rfl
  have href : ∀ (s' : ParserState) (r : List Reference),
      headInfo { s' with references := r } = headInfo s' := fun s' r => rfl
  have hccl : ∀ (s' : ParserState) (c : List String),
      headInfo { s' with currentContent := c } = headInfo s' := fun s' c => rfl
  simp only [stepLine]
  split
  · next lvl num tp _ =>
    apply headInfo_processSectionHeader
    rw [hcc]
    split
    · rw [headInfo_appendContent]; exact h
    · exact h
  · split
    · rw [htb]
      split
      · rw [hcc]
        split
        · rw [headInfo_appendContent]; exact h
        · exact h
      · exact h
    · split
      · rw [headInfo_processTableBuffer]; exact h
      · split
        · split
          · rw [hccl, href]; exact h
          · rw [hccl]; exact h
        · split
          · rw [href]; exact h
          · exact h

theorem headInfo_runLines (lines : List String) (s : ParserState) (x : String × Nat)
    (h : headInfo s = some x) : headInfo (runLines s lines) = some x := by
  induction lines generalizing s with
  | nil => exact h
  | cons ℓ rest ih =>
    simp only [runLines, List.foldl_cons] at *
    exact ih _ (headInfo_stepLine s ℓ x h)

theorem headInfo_finalize (s : ParserState) (x : String × Nat)
    (h : headInfo s = some x) : headInfo (finalizeParsing s) = some x := by
  unfold finalizeParsing
  split
  · rw [headInfo_processTableBuffer]; exact h
  · exact h

theorem headInfo_postLoop (s : ParserState) (x : String × Nat)
    (h : headInfo s = some x) : headInfo (postLoop s) = some x := by
  unfold postLoop
  apply headInfo_finalize
  split
  · rw [headInfo_appendContent]; exact h
  · exact h

theorem stepLine_level1_header (s : ParserState) (ℓ : String) (num tp : String)
    (hhm : headerMatch (rstrip ℓ) = some (1, num, tp))
    (hseen : s.seenDocumentTitle = true)
    (hcc : s.currentContent = []) (hdone : s.doneSections = [])
    (hroot : s.stackRooted = false) :
    headInfo (stepLine s ℓ) =
      some (strip (if num = "" then tp else num ++ " " ++ tp), 1) := by
  simp only [stepLine, hhm, hcc, List.isEmpty_nil, Bool.not_true, Bool.false_and,
    Bool.false_eq_true, if_false, ite_false]
  simp only [processSectionHeader, hseen, Bool.not_true, Bool.and_false,
    Bool.false_eq_true, if_false, ite_false, decide_True, Bool.true_and,
    if_pos rfl]
  unfold addAtRoot
  simp only [hroot, Bool.false_eq_true, if_false, ite_false, hdone]
  unfold headInfo stateSections
  simp [closePath]
  exact ⟨rfl, rfl⟩

/-- C10 (confirmed): parser state persists across `parse_file` calls on the
same instance.  Provided the first parse saw a level-1 heading (setting the
title flag), a second parse on the same instance numbers its first table
`T<k+1>` where `k` is the number of tables the first document got, and a
level-1 heading at the start of the second input is *not* suppressed as a
title marker: it becomes the first top-level section of the second
document. -/
theorem c10_state_persistence (lines1 lines2 : List String) (t1 n1 t2 n2 : String) :
    (parseFileLines initParser lines1 t1 n1).2.seenDocumentTitle = true →
    (∀ tb rest,
      (parseFileLines (parseFileLines initParser lines1 t1 n1).2 lines2 t2 n2).1.tables
        = tb :: rest →
      tb.id = "T" ++
        toString ((parseFileLines initParser lines1 t1 n1).1.tables.length + 1)) ∧
    (∀ ℓ rest2 num tp, lines2 = ℓ :: rest2 →
      headerMatch (rstrip ℓ) = some (1, num, tp) →
      ∃ sec srest,
        (parseFileLines (parseFileLines initParser lines1 t1 n1).2 lines2 t2 n2).1.sections
          = sec :: srest ∧ sec.level = 1 ∧
        sec.raw_name = strip (if num = "" then tp else num ++ " " ++ tp)) := by
  intro hseen
  constructor
  · intro tb rest htb
    have hT1 := parseFileLines_TInv initParser lines1 t1 n1
    have hT2 := parseFileLines_TInv (parseFileLines initParser lines1 t1 n1).2
      lines2 t2 n2
    have hmap := hT2.2
    rw [show (parseFileLines (parseFileLines initParser lines1 t1 n1).2
        lines2 t2 n2).2.tables = tb :: rest from htb] at hmap
    rw [List.length_cons, List.range_succ_eq_map] at hmap
    simp only [List.map_cons, List.map_map] at hmap
    have hhd := congrArg List.head? hmap
    simp only [List.head?_cons] at hhd
    injection hhd with hhd
    rw [hhd]
    have hk : (parseFileLines initParser lines1 t1 n1).2.tableCount =
        (parseFileLines initParser lines1 t1 n1).1.tables.length := by
      have h0 := hT1.1
      rw [show initParser.tableCount = 0 from rfl, Nat.zero_add] at h0
      exact h0
    rw [hk]
  · intro ℓ rest2 num tp hl hhm
    have hstep := stepLine_level1_header
      (parseInitState (parseFileLines initParser lines1 t1 n1).2 t2) ℓ num tp hhm
      hseen rfl rfl rfl
    have hrun : headInfo (runLines
        (parseInitState (parseFileLines initParser lines1 t1 n1).2 t2) lines2) =
        some (strip (if num = "" then tp else num ++ " " ++ tp), 1) := by
      rw [hl]
      show headInfo (runLines (stepLine _ ℓ) rest2) = _
      exact headInfo_runLines rest2 _ _ hstep
    have hfin := headInfo_postLoop _ _ hrun
    unfold headInfo at hfin
    rw [Option.map_eq_some'] at hfin
    obtain ⟨sec, hsec1, hsec2⟩ := hfin
    cases hss : stateSections (postLoop (runLines
        (parseInitState (parseFileLines initParser lines1 t1 n1).2 t2) lines2)) with
    | nil => rw [hss] at hsec1; exact absurd hsec1 (by simp)
    | cons a tail =>
      rw [hss] at hsec1
      simp only [List.head?_cons, Option.some.injEq] at hsec1
      subst hsec1
      simp only [Prod.mk.injEq] at hsec2
      exact ⟨a, tail, hss, hsec2.2, hsec2.1⟩

def c10Lines1 : List String := ["# T", "|a|b|", "|---|---|", ""]

def c10Lines2 : List String := ["# B", "|x|y|", ""]

/-- Witness for `c10_state_persistence`: the first parse consumes a title
heading and one table; on the same instance, the second parse's table is
numbered `T2` and its leading `"# B"` heading becomes a real top-level
section. -/
theorem c10_state_persistence_witness :
    ((⟨"T2", "Table 2", [], []⟩ : Table).id = "T" ++
      toString ((parseFileLines initParser c10Lines1 "t1" "n1").1.tables.length + 1)) ∧
    (∃ sec srest,
      (parseFileLines (parseFileLines initParser c10Lines1 "t1" "n1").2
          c10Lines2 "t2" "n2").1.sections = sec :: srest ∧ sec.level = 1 ∧
      sec.raw_name = strip (if "" = "" then "B" else "" ++ " " ++ "B")) := by
  have h := c10_state_persistence c10Lines1 c10Lines2 "t1" "n1" "t2" "n2" rfl
  exact ⟨h.1 ⟨"T2", "Table 2", [], []⟩ [] rfl,
         h.2 "# B" ["|x|y|", ""] "" "B" rfl rfl⟩

/-! ## Serialization round-trip (C4) -/

theorem Sec.induct (motive : Sec → Prop)
    (h : ∀ n r c l subs, (∀ t ∈ subs, motive t) → motive (Sec.mk n r c l subs)) :
    ∀ s, motive s
  | .mk n r c l subs => h n r c l subs (fun t ht => Sec.induct motive h t)
termination_by s => sizeOf s
decreasing_by
  simp_wf
  have := List.sizeOf_lt_of_mem ht
  omega

theorem decodeList_roundtrip {α : Type} (f : Json → Option α) (g : α → Json)
    (h : ∀ x, f (g x) = some x) : ∀ l : List α, decodeList f (l.map g) = some l := by
  intro l
  induction l with
  | nil => rfl
  | cons a l ih => simp [decodeList, h, ih]

theorem rt_secs_aux (ss : List Sec)
    (ih : ∀ t ∈ ss, secFromDict (secToDict t) = some t) :
    decodeSecs (secsToDict ss) = some ss := by
  induction ss with
  | nil => rfl
  | cons a l ihl =>
    rw [secsToDict, decodeSecs]
    rw [ih a (by simp)]
    rw [ihl (fun t ht => ih t (by simp [ht]))]
    rfl

theorem rt_sec (s : Sec) : secFromDict (secToDict s) = some s := by
  induction s using Sec.induct with
  | h n r c l subs ih =>
    have hsubs : decodeSecs (secsToDict subs) = some subs := rt_secs_aux subs ih
    rw [secToDict, secFromDict]
    simp [List.lookup, Json.asStr, Json.asNat, decodeSubsFields, decodeSecList, hsubs]

theorem rt_table (t : Table) : Table.fromDict (Table.toDict t) = some t := by
  rw [Table.toDict, Table.fromDict]
  simp [List.lookup, Json.asObj, Json.asStr, decodeStrList, decodeRowList,
    Json.asArr, decodeList_roundtrip Json.asStr Json.str (fun x => rfl),
    decodeList_roundtrip decodeStrList (fun r => Json.arr (r.map Json.str))
      (fun x => by simp [decodeStrList, Json.asArr,
        decodeList_roundtrip Json.asStr Json.str (fun y => rfl)])]

theorem rt_reference (r : Reference) :
    Reference.fromDict (Reference.toDict r) = some r := by
  rw [Reference.toDict, Reference.fromDict]
  simp [List.lookup, Json.asObj, Json.asStr]

theorem rt_secs (ss : List Sec) : decodeSecs (secsToDict ss) = some ss :=
  rt_secs_aux ss (fun t _ => rt_sec t)

theorem dictPop_fst (fs : List (String × Json)) (k : String) :
    (dictPop fs k).1 = List.lookup k fs := by
  induction fs with
  | nil => rfl
  | cons p rest ih =>
    obtain ⟨k', v⟩ := p
    rw [dictPop, List.lookup]
    by_cases h : k' = k
    · subst h
      simp
    · have hb : (k == k') = false := by
        simp [Ne.symm h]
      simp [h, hb, ih]

theorem lookup_dictSet_self (fs : List (String × Json)) (k : String) (v : Json) :
    List.lookup k (dictSet fs k v) = some v := by
  induction fs with
  | nil => simp [dictSet, List.lookup]
  | cons p rest ih =>
    obtain ⟨k', v'⟩ := p
    rw [dictSet]
    by_cases h : k' = k
    · simp [h, List.lookup]
    · have hb : (k == k') = false := by simp [Ne.symm h]
      simp [h, List.lookup, hb, ih]

theorem lookup_dictSet_ne (fs : List (String × Json)) (k k' : String) (v : Json)
    (h : k' ≠ k) : List.lookup k' (dictSet fs k v) = List.lookup k' fs := by
  induction fs with
  | nil => simp [dictSet, List.lookup, show (k' == k) = false by simp [h]]
  | cons p rest ih =>
    obtain ⟨k0, v0⟩ := p
    rw [dictSet]
    by_cases h0 : k0 = k
    · subst h0
      simp [List.lookup, show (k' == k0) = false by simp [h]]
    · simp [h0, List.lookup, ih]

theorem lookup_dictPop_ne (fs : List (String × Json)) (k k' : String)
    (h : k' ≠ k) : List.lookup k' (dictPop fs k).2 = List.lookup k' fs := by
  induction fs with
  | nil => rfl
  | cons p rest ih =>
    obtain ⟨k0, v0⟩ := p
    rw [dictPop]
    by_cases h0 : k0 = k
    · subst h0
      simp [List.lookup, show (k' == k0) = false by simp [h]]
    · simp [h0, List.lookup, ih]

/-- C4 (confirmed): deserializing the serialization of any Document
recovers it exactly on title, the full section tree, the ordered table
list and the ordered reference list, even though tables and references
travel nested under the `metadata` key. -/
theorem c4_roundtrip (d : Document) (now : String) :
    (docFromDict now (docToDict d)).map
        (fun d' => (d'.title, d'.sections, d'.tables, d'.references)) =
      some (d.title, d.sections, d.tables, d.references) := by
  have hT : List.lookup "tables"
      (dictSet (dictSet d.metadata "tables" (.arr (d.tables.map Table.toDict)))
        "references" (.arr (d.references.map Reference.toDict))) =
      some (.arr (d.tables.map Table.toDict)) := by
    rw [lookup_dictSet_ne _ _ _ _ (by decide), lookup_dictSet_self]
  have hR : List.lookup "references"
      (dictPop (dictSet (dictSet d.metadata "tables"
          (.arr (d.tables.map Table.toDict)))
        "references" (.arr (d.references.map Reference.toDict))) "tables").2 =
      some (.arr (d.references.map Reference.toDict)) := by
    rw [lookup_dictPop_ne _ _ _ (by decide), lookup_dictSet_self]
  rw [docToDict, docFromDict]
  simp [List.lookup, Json.asObj, Json.asStr, Json.asArr, dictPop_fst, hT, hR,
    decodeSecList, rt_secs,
    decodeList_roundtrip Table.fromDict Table.toDict rt_table,
    decodeList_roundtrip Reference.fromDict Reference.toDict rt_reference]

/-! ## The child-level invariant (C3) -/

/-- Every stored child sits strictly deeper than its parent, recursively
through the whole subtree. -/
inductive SecOk : Sec → Prop where
  | intro (n r c : String) (L : Nat) (subs : List Sec)
      (hlt : ∀ x ∈ subs, L < x.level)
      (hok : ∀ x ∈ subs, SecOk x) : SecOk (Sec.mk n r c L subs)

/-- One node's stored children are deeper than it and recursively well
levelled. -/
def nodeOk (x : Sec) : Prop :=
  (∀ c ∈ x.subsections, x.level < c.level) ∧ (∀ c ∈ x.subsections, SecOk c)

theorem secOk_of_nodeOk (x : Sec) (h : nodeOk x) : SecOk x := by
  obtain ⟨n, r, c, L, subs⟩ := x
  exact SecOk.intro n r c L subs h.1 h.2

theorem secOk_mk_iff (n r c : String) (L : Nat) (subs : List Sec) :
    SecOk (Sec.mk n r c L subs) ↔
      (∀ x ∈ subs, L < x.level) ∧ (∀ x ∈ subs, SecOk x) := by
  constructor
  · intro h
    cases h
    constructor <;> assumption
  · intro h
    exact SecOk.intro n r c L subs h.1 h.2

/-- The parse-time structural invariant: closed top-level sections are
well levelled, every open node's stored children are, and the open path's
levels strictly increase. -/
structure StInv (s : ParserState) : Prop where
  done : ∀ sec ∈ s.doneSections, SecOk sec
  path : ∀ sec ∈ s.openPath, nodeOk sec
  chain : List.Chain' (· < ·) (s.openPath.map Sec.level)

theorem StInv_of_frame {s s' : ParserState} (h : StInv s)
    (hd : s'.doneSections = s.doneSections) (hp : s'.openPath = s.openPath) :
    StInv s' := by
  refine ⟨?_, ?_, ?_⟩
  · rw [hd]; exact h.done
  · rw [hp]; exact h.path
  · rw [hp]; exact h.chain

theorem closePath_ok : ∀ (x0 : Sec) (r : List Sec) (c : Sec),
    closePath (x0 :: r) = some c →
    (∀ x ∈ x0 :: r, nodeOk x) →
    List.Chain' (· < ·) ((x0 :: r).map Sec.level) →
    SecOk c
  | x0, [], c, hc, hnode, _ => by
    simp only [closePath] at hc
    injection hc with hc
    subst hc
    exact secOk_of_nodeOk x0 (hnode x0 (by simp))
  | x0, y :: r', c, hc, hnode, hchain => by
    obtain ⟨c', hc', hcr', hcl', _⟩ := closePath_cons y r'
    rw [closePath, hc'] at hc
    injection hc with hc
    subst hc
    have hch : x0.level < y.level ∧
        List.Chain' (· < ·) (y.level :: List.map Sec.level r') := by
      simpa using hchain
    have hok' : SecOk c' := closePath_ok y r' c' hc'
      (fun x hx => hnode x (by simp [hx]))
      (by simpa using hch.2)
    have hlt : x0.level < c'.level := by
      rw [hcl']
      exact hch.1
    obtain ⟨n, rr, cc, L, subs⟩ := x0
    have hn := hnode (Sec.mk n rr cc L subs) (by simp)
    refine SecOk.intro n rr cc L _ ?_ ?_
    · intro x hx
      rcases List.mem_append.mp hx with hx | hx
      · exact hn.1 x hx
      · rcases List.mem_singleton.mp hx with rfl
        exact hlt
    · intro x hx
      rcases List.mem_append.mp hx with hx | hx
      · exact hn.2 x hx
      · rcases List.mem_singleton.mp hx with rfl
        exact hok'

theorem attachRec_inv (L : Nat) (nw : Sec) :
    ∀ (p p' : List Sec), attachRec L nw p = some p' →
    (∀ x ∈ p, nodeOk x) → List.Chain' (· < ·) (p.map Sec.level) →
    nw.subsections = [] → nw.level = L →
    ((∀ x ∈ p', nodeOk x) ∧ List.Chain' (· < ·) (p'.map Sec.level))
  | [], p', h => by simp [attachRec] at h
  | x :: rest, p', h => by
    intro hnode hchain hnw hnwl
    rw [attachRec] at h
    split at h
    · -- a parent was found deeper in the path
      rename_i p'' ha
      injection h with h
      subst h
      have ih := attachRec_inv L nw rest p'' ha
        (fun z hz => hnode z (by simp [hz]))
        (by
          cases rest with
          | nil => simp [attachRec] at ha
          | cons y r' => simpa using (by simpa using hchain : _ ∧ _).2)
        hnw hnwl
      refine ⟨?_, ?_⟩
      · intro z hz
        rcases List.mem_cons.mp hz with rfl | hz
        · exact hnode z (by simp)
        · exact ih.1 z hz
      · -- x.level < head of p''
        obtain ⟨y, r0, y', r0', hrest, hp'', hyr, hyl, _⟩ :=
          attachRec_head L nw rest p'' ha
        subst hrest
        rw [hp'']
        have hch : x.level < y.level ∧
            List.Chain' (· < ·) (y.level :: List.map Sec.level r0) := by
          simpa using hchain
        have := ih.2
        rw [hp''] at this
        simp only [List.map_cons] at this ⊢
        exact List.Chain'.cons (by rw [hyl]; exact hch.1) this
    · -- no parent beyond x; attach to x if shallower
      split at h
      · rename_i hxl
        injection h with h
        subst h
        have hnx := hnode x (by simp)
        have hclosed : ∀ c0, closePath rest = some c0 →
            (x.level < c0.level ∧ SecOk c0) := by
          intro c0 hc0
          cases rest with
          | nil => simp [closePath] at hc0
          | cons y r' =>
            obtain ⟨c1, hc1, _, hcl1, _⟩ := closePath_cons y r'
            rw [hc1] at hc0
            injection hc0 with hc0
            subst hc0
            have hch : x.level < y.level ∧
                List.Chain' (· < ·) (y.level :: List.map Sec.level r') := by
              simpa using hchain
            refine ⟨by rw [hcl1]; exact hch.1, ?_⟩
            exact closePath_ok y r' c1 hc1
              (fun z hz => hnode z (by simp [hz])) (by simpa using hch.2)
        cases hcp : closePath rest with
        | none =>
          simp only [hcp]
          constructor
          · intro z hz
            rcases List.mem_cons.mp hz with rfl | hz
            · exact hnx
            · rcases List.mem_singleton.mp hz with rfl
              refine ⟨?_, ?_⟩ <;> (rw [hnw]; intro c hc; cases hc)
          · simp only [List.map_cons, List.map_nil]
            exact List.chain'_pair.mpr (by rw [hnwl]; exact hxl)
        | some c0 =>
          simp only [hcp]
          obtain ⟨hlt0, hok0⟩ := hclosed c0 hcp
          constructor
          · intro z hz
            rcases List.mem_cons.mp hz with rfl | hz
            · refine ⟨?_, ?_⟩
              · intro w hw
                rcases List.mem_append.mp hw with hw | hw
                · exact hnx.1 w hw
                · rcases List.mem_singleton.mp hw with rfl
                  exact hlt0
              · intro w hw
                rcases List.mem_append.mp hw with hw | hw
                · exact hnx.2 w hw
                · rcases List.mem_singleton.mp hw with rfl
                  exact hok0
            · rcases List.mem_singleton.mp hz with rfl
              refine ⟨?_, ?_⟩ <;> (rw [hnw]; intro c hc; cases hc)
          · simp only [List.map_cons, List.map_nil]
            exact List.chain'_pair.mpr (by rw [hnwl]; exact hxl)
      · exact absurd h (by simp)

theorem addAtRoot_StInv (s : ParserState) (nw : Sec) (hnw : nw.subsections = [])
    (h : StInv s) : StInv (addAtRoot s nw) := by
  unfold addAtRoot
  refine ⟨?_, ?_, ?_⟩
  · intro sec hsec
    split at hsec
    · split at hsec
      · rename_i c hc
        rcases List.mem_append.mp hsec with hsec | hsec
        · exact h.done sec hsec
        · rcases List.mem_singleton.mp hsec with rfl
          cases hp : s.openPath with
          | nil => rw [hp] at hc; simp [closePath] at hc
          | cons x0 r =>
            rw [hp] at hc
            exact closePath_ok x0 r sec hc
              (by rw [← hp]; exact h.path) (by rw [← hp]; exact h.chain)
      · exact h.done sec hsec
    · exact h.done sec hsec
  · intro sec hsec
    rcases List.mem_singleton.mp hsec with rfl
    exact ⟨(by rw [hnw]; intro c hc; cases hc), (by rw [hnw]; intro c hc; cases hc)⟩
  · simp

theorem processSectionHeader_StInv (s : ParserState) (tp : String) (lvl : Nat)
    (num : String) (h : StInv s) : StInv (processSectionHeader s tp lvl num) := by
  simp only [processSectionHeader]
  split
  · exact StInv_of_frame h rfl rfl
  · split
    · exact addAtRoot_StInv s _ rfl h
    · split
      · rename_i p' hp'
        have hinv := attachRec_inv lvl _ s.openPath p' hp' h.path h.chain rfl rfl
        exact ⟨h.done, hinv.1, hinv.2⟩
      · exact addAtRoot_StInv s _ rfl h

theorem updateLast_mem {f : Sec → Sec} :
    ∀ {p : List Sec} {z : Sec}, z ∈ updateLast f p → z ∈ p ∨ ∃ y ∈ p, z = f y := by
  intro p
  induction p with
  | nil => intro z hz; cases hz
  | cons a rest ih =>
    intro z hz
    cases rest with
    | nil =>
      rcases List.mem_singleton.mp hz with rfl
      exact Or.inr ⟨a, by simp, rfl⟩
    | cons b r =>
      rw [show updateLast f (a :: b :: r) = a :: updateLast f (b :: r) from rfl] at hz
      rcases List.mem_cons.mp hz with rfl | hz
      · exact Or.inl (by simp)
      · rcases ih hz with hz | ⟨y, hy, rfl⟩
        · exact Or.inl (by simp [hz])
        · exact Or.inr ⟨y, by simp [hy], rfl⟩

theorem updateLast_map_level (f : Sec → Sec) (hf : ∀ a, (f a).level = a.level) :
    ∀ p : List Sec, (updateLast f p).map Sec.level = p.map Sec.level
  | [] => rfl
  | [s] => by simp [updateLast, hf]
  | s :: y :: r => by
    rw [show updateLast f (s :: y :: r) = s :: updateLast f (y :: r) from rfl]
    rw [List.map_cons, List.map_cons, updateLast_map_level f hf (y :: r)]

theorem appendContent_StInv (s : ParserState) (h : StInv s) :
    StInv (appendContent s) := by
  unfold appendContent
  refine ⟨h.done, ?_, ?_⟩
  · intro sec hsec
    rcases updateLast_mem hsec with hsec | ⟨y, hy, rfl⟩
    · exact h.path sec hsec
    · exact h.path y hy
  · rw [show ({ s with openPath := updateLast (fun sec =>
        Sec.mk sec.name sec.raw_name
          (sec.content ++ String.intercalate "\n" s.currentContent ++ "\n")
          sec.level sec.subsections) s.openPath } : ParserState).openPath =
      updateLast (fun sec =>
        Sec.mk sec.name sec.raw_name
          (sec.content ++ String.intercalate "\n" s.currentContent ++ "\n")
          sec.level sec.subsections) s.openPath from rfl]
    rw [updateLast_map_level (fun sec =>
        Sec.mk sec.name sec.raw_name
          (sec.content ++ String.intercalate "\n" s.currentContent ++ "\n")
          sec.level sec.subsections) (fun a => rfl)]
    exact h.chain

theorem processTableBuffer_StInv (s : ParserState) (h : StInv s) :
    StInv (processTableBuffer s) :=
  StInv_of_frame h (processTableBuffer_frame s).1 (processTableBuffer_frame s).2.1

theorem stepLine_StInv (s : ParserState) (ℓ : String) (h : StInv s) :
    StInv (stepLine s ℓ) := by
  simp only [stepLine]
  split
  · apply processSectionHeader_StInv
    split
    · exact StInv_of_frame (appendContent_StInv s h) rfl rfl
    · exact StInv_of_frame h rfl rfl
  · split
    · split
      · split
        · exact StInv_of_frame (appendContent_StInv s h) rfl rfl
        · exact StInv_of_frame h rfl rfl
      · exact StInv_of_frame h rfl rfl
    · split
      · exact processTableBuffer_StInv s h
      · split
        · split
          · exact StInv_of_frame h rfl rfl
          · exact StInv_of_frame h rfl rfl
        · split
          · exact StInv_of_frame h rfl rfl
          · exact StInv_of_frame h rfl rfl

theorem runLines_StInv (lines : List String) (s : ParserState) (h : StInv s) :
    StInv (runLines s lines) := by
  induction lines generalizing s with
  | nil => exact h
  | cons ℓ rest ih =>
    simp only [runLines, List.foldl_cons] at *
    exact ih _ (stepLine_StInv s ℓ h)

theorem finalizeParsing_StInv (s : ParserState) (h : StInv s) :
    StInv (finalizeParsing s) := by
  unfold finalizeParsing
  split
  · exact processTableBuffer_StInv _ h
  · exact h

theorem postLoop_StInv (s : ParserState) (h : StInv s) : StInv (postLoop s) := by
  unfold postLoop
  apply finalizeParsing_StInv
  split
  · exact appendContent_StInv s h
  · exact h

theorem stateSections_SecOk (s : ParserState) (h : StInv s) :
    ∀ sec ∈ stateSections s, SecOk sec := by
  intro sec hsec
  unfold stateSections at hsec
  rcases List.mem_append.mp hsec with hsec | hsec
  · exact h.done sec hsec
  · split at hsec
    · cases hp : s.openPath with
      | nil => rw [hp] at hsec; simp [closePath] at hsec
      | cons x0 r =>
        rw [hp] at hsec
        obtain ⟨c, hc, _, _, _⟩ := closePath_cons x0 r
        rw [hc] at hsec
        rcases List.mem_singleton.mp (by simpa using hsec) with rfl
        exact closePath_ok x0 r sec hc
          (by rw [← hp]; exact h.path) (by rw [← hp]; exact h.chain)
    · cases hsec

/-- The C3 property: in every section of the document, recursively, every
direct child's level strictly exceeds its parent's. -/
def docLevelsOk (d : Document) : Prop :=
  ∀ sec ∈ d.sections, SecOk sec

/-- C3 (confirmed): every document a parse produces satisfies the
child-level invariant at every depth of its section tree. -/
theorem c3_child_levels (lines : List String) (title now : String) :
    docLevelsOk (parseDocument lines title now) := by
  have h0 : StInv (parseInitState initParser title) := by
    refine ⟨?_, ?_, ?_⟩
    · intro sec hsec; cases hsec
    · intro sec hsec; cases hsec
    · simp [parseInitState, initParser]
  have h1 := postLoop_StInv _ (runLines_StInv lines _ h0)
  intro sec hsec
  exact stateSections_SecOk _ h1 sec hsec

/-! ## Header levels (C5) -/

theorem mem_runSplitsDesc_zero (p : Char → Bool) (r : List Char) :
    ([], r) ∈ runSplitsDesc p r := by
  unfold runSplitsDesc
  refine List.mem_map.mpr ⟨0, ?_, by simp⟩
  simp

theorem mem_repsSplitsF_zero (f : Nat) (r : List Char) :
    ([], r) ∈ repsSplitsF f r := by
  cases f with
  | zero => simp [repsSplitsF]
  | succ f' =>
    rw [repsSplitsF]
    cases numDotRep r with
    | none => simp
    | some pr => simp

theorem mem_dotSplits_zero (r : List Char) : ([], r) ∈ dotSplits r := by
  unfold dotSplits
  split <;> simp

theorem mem_group2Splits_zero (r : List Char) : ([], r) ∈ group2Splits r := by
  unfold group2Splits
  refine List.mem_flatMap.mpr ⟨([], r), mem_repsSplitsF_zero _ r, ?_⟩
  refine List.mem_flatMap.mpr ⟨([], r), mem_runSplitsDesc_zero _ r, ?_⟩
  refine List.mem_flatMap.mpr ⟨([], r), mem_dotSplits_zero r, ?_⟩
  refine List.mem_map.mpr ⟨([], r), mem_runSplitsDesc_zero _ r, ?_⟩
  simp

theorem mem_tailCandidates_zero (r : List Char) : ([], r) ∈ tailCandidates r := by
  unfold tailCandidates
  exact List.mem_flatMap.mpr ⟨([], r), mem_runSplitsDesc_zero _ r, mem_group2Splits_zero r⟩

theorem findSomeNoneAll {α β : Type} (f : α → Option β) :
    ∀ (l : List α), List.findSome? f l = none → ∀ x ∈ l, f x = none := by
  intro l
  induction l with
  | nil => intro _ x hx; cases hx
  | cons a t ih =>
    intro h x hx
    rw [List.findSome?_cons] at h
    cases hfa : f a with
    | some b => rw [hfa] at h; cases h
    | none =>
      rw [hfa] at h
      rcases List.mem_cons.mp hx with rfl | hx
      · exact hfa
      · exact ih h x hx

theorem matchTail_some (r : List Char) (h : r ≠ []) :
    ∃ pr, matchTail r = some pr := by
  cases hm : matchTail r with
  | some pr => exact ⟨pr, rfl⟩
  | none =>
    exfalso
    unfold matchTail at hm
    have h2 := findSomeNoneAll _ _ hm ([], r) (mem_tailCandidates_zero r)
    rw [if_neg (by simpa [List.isEmpty_iff] using h)] at h2
    cases h2

theorem matchTail_nil : matchTail [] = none := rfl

theorem hashJs_succ (m : Nat) : hashJs (m + 1) = (m + 1) :: hashJs m := by
  unfold hashJs
  rw [List.range_succ]
  simp

theorem mem_hashJs (m j : Nat) (h : j ∈ hashJs m) : 1 ≤ j ∧ j ≤ m := by
  unfold hashJs at h
  obtain ⟨k, hk, rfl⟩ := List.mem_map.mp h
  rw [List.mem_reverse, List.mem_range] at hk
  omega

/-- C5 (amended): every line the header pattern accepts gets a level
between 1 and 6.  When at least one non-marker character follows the
leading marker run of length `h ≥ 1`, the line is a Header of level
`min h 6` — so a run longer than 6 still yields a Header, at level 6.  A
line consisting solely of `h ≥ 2` markers is still a Header, at level
`min (h-1) 6` (backtracking cedes one marker to the title).  Lines with no
leading marker are not Headers. -/
theorem c5_header_level (line : String) :
    (∀ lvl num tp, headerMatch line = some (lvl, num, tp) → 1 ≤ lvl ∧ lvl ≤ 6) ∧
    ((line.toList.takeWhile (· = '#')).length ≥ 1 →
     (line.toList.takeWhile (· = '#')).length < line.toList.length →
     ∃ num tp, headerMatch line =
       some (min (line.toList.takeWhile (· = '#')).length 6, num, tp)) ∧
    ((line.toList.takeWhile (· = '#')).length = line.toList.length →
     2 ≤ (line.toList.takeWhile (· = '#')).length →
     ∃ num tp, headerMatch line =
       some (min ((line.toList.takeWhile (· = '#')).length - 1) 6, num, tp)) ∧
    ((line.toList.takeWhile (· = '#')).length = 0 → headerMatch line = none) := by
  refine ⟨?_, ?_, ?_, ?_⟩
  · intro lvl num tp hm
    unfold headerMatch at hm
    obtain ⟨j, hj, hfj⟩ := List.exists_of_findSome?_eq_some hm
    obtain ⟨h1, h2⟩ := mem_hashJs _ j hj
    cases hmt : matchTail (line.toList.drop j) with
    | none => rw [hmt] at hfj; cases hfj
    | some pr =>
      rw [hmt] at hfj
      simp only [Option.map_some', Option.some.injEq, Prod.mk.injEq] at hfj
      have hjl : j = lvl := hfj.1
      subst hjl
      omega
  · intro hge hlt
    have hmin1 : 1 ≤ min (line.toList.takeWhile (· = '#')).length 6 := by omega
    obtain ⟨m', hm'⟩ : ∃ m',
        min (line.toList.takeWhile (· = '#')).length 6 = m' + 1 :=
      ⟨min (line.toList.takeWhile (· = '#')).length 6 - 1, by omega⟩
    obtain ⟨pr, hpr⟩ := matchTail_some (line.toList.drop (m' + 1)) (by
      intro hnil
      rw [List.drop_eq_nil_iff] at hnil
      omega)
    refine ⟨pr.1, pr.2, ?_⟩
    simp only [headerMatch]
    rw [hm', hashJs_succ, List.findSome?_cons, hpr]
    simp only [Option.map_some']
  · intro heq hge2
    by_cases h6 : (line.toList.takeWhile (· = '#')).length ≤ 6
    · obtain ⟨k, hk⟩ : ∃ k, (line.toList.takeWhile (· = '#')).length = k + 2 :=
        ⟨(line.toList.takeWhile (· = '#')).length - 2, by omega⟩
      have hd : line.toList.drop (k + 2) = [] :=
        List.drop_eq_nil_of_le (by omega)
      obtain ⟨pr, hpr⟩ := matchTail_some (line.toList.drop (k + 1)) (by
        intro hnil
        rw [List.drop_eq_nil_iff] at hnil
        omega)
      refine ⟨pr.1, pr.2, ?_⟩
      simp only [headerMatch]
      have hmh : min (line.toList.takeWhile (· = '#')).length 6 = (k + 1) + 1 := by
        omega
      rw [hmh, hashJs_succ, List.findSome?_cons, hd, matchTail_nil]
      simp only [Option.map_none']
      rw [hashJs_succ, List.findSome?_cons, hpr]
      simp only [Option.map_some']
      have : min ((line.toList.takeWhile (· = '#')).length - 1) 6 = k + 1 := by
        omega
      rw [this]
    · obtain ⟨pr, hpr⟩ := matchTail_some (line.toList.drop 6) (by
        intro hnil
        rw [List.drop_eq_nil_iff] at hnil
        omega)
      refine ⟨pr.1, pr.2, ?_⟩
      simp only [headerMatch]
      have hmh : min (line.toList.takeWhile (· = '#')).length 6 = 5 + 1 := by
        omega
      rw [hmh, hashJs_succ, List.findSome?_cons]
      rw [show (5 : Nat) + 1 = 6 from rfl] at *
      rw [hpr]
      simp only [Option.map_some']
      have : min ((line.toList.takeWhile (· = '#')).length - 1) 6 = 6 := by
        omega
      rw [this]
  · intro h0
    simp only [headerMatch]
    rw [h0]
    simp [hashJs]

/-- Witness for `c5_header_level` at concrete lines: a normal header, a
7-marker line (level capped at 6), an all-marker line, and a non-header. -/
theorem c5_header_level_witness :
    (1 ≤ 2 ∧ 2 ≤ 6) ∧
    (∃ num tp, headerMatch "####### X" =
      some (min ("####### X".toList.takeWhile (· = '#')).length 6, num, tp)) ∧
    (∃ num tp, headerMatch "###" =
      some (min (("###".toList.takeWhile (· = '#')).length - 1) 6, num, tp)) ∧
    headerMatch "abc" = none :=
  ⟨(c5_header_level "## X").1 2 "" "X" rfl,
   (c5_header_level "####### X").2.1 (by decide) (by decide),
   (c5_header_level "###").2.2.1 (by decide) (by decide),
   (c5_header_level "abc").2.2.2 (by decide)⟩

end Amalga
